import Mathlib

/-!
Verification of the anonymization core of SCMWriter/transform_text_to_csv.py.

The Python source is shallowly embedded below.  Text is a list of characters;
the regular expressions of the source are embedded as explicit backtracking
matchers with the leftmost, greedy, first-alternative-preferred semantics of
the Python re module; Python dictionaries (which preserve insertion order and
keep the position of a key on overwrite) are association lists.  Scanning
loops whose measure is not structural take an explicit fuel argument; each
wrapper passes fuel that provably suffices, and the fuel-exhaustion branches
are proved unreachable.  The character class \d and the case folding of
str.lower / re.IGNORECASE are modelled on ASCII.
-/

set_option maxRecDepth 40000

namespace SCMWriter

/-- Strings of the Python program are modelled as lists of characters. -/
abbrev Str := List Char

/-- Test of the character at index i of a text; false past the end. -/
def chAt (t : Str) (i : Nat) (p : Char → Bool) : Bool :=
  match t[i]? with
  | some c => p c
  | none => false

/-- The character class [A-Za-z0-9_] used by the lookarounds of the numeric
literal pattern (line 132 of the source). -/
def isWordChar (c : Char) : Bool :=
  c.isAlpha || c.isDigit || c = '_'

/-- Python str.lower, modelled on ASCII. -/
def lowerStr (s : Str) : Str := s.map Char.toLower

/-- Case folding applied by re.IGNORECASE, modelled on ASCII. -/
def foldCase (ci : Bool) (s : Str) : Str := if ci then lowerStr s else s

/-- The substring text[s:e]. -/
def strSlice (t : Str) (s e : Nat) : Str := (t.drop s).take (e - s)

/-! ### Association lists for Python dictionaries -/

/-- Python dict assignment d[k] = v: overwrite in place if the key exists
(keeping its position, as Python dictionaries do), else append. -/
def dictSet {β : Type} (m : List (Str × β)) (k : Str) (v : β) : List (Str × β) :=
  match m with
  | [] => [(k, v)]
  | (k2, v2) :: rest => if k2 = k then (k2, v) :: rest else (k2, v2) :: dictSet rest k v

/-- Python membership test k in d. -/
def dictContains {β : Type} (m : List (Str × β)) (k : Str) : Bool :=
  m.any (fun p => decide (p.1 = k))

/-- Python lookup d[k] with a default for totality (lookups in the source
are only performed on present keys). -/
def dictGetD {β : Type} (m : List (Str × β)) (k : Str) (d : β) : β :=
  match m.find? (fun p => decide (p.1 = k)) with
  | some p => p.2
  | none => d

/-- The keys of a dictionary in insertion order. -/
def dictKeys {β : Type} (m : List (Str × β)) : List Str := m.map Prod.fst

/-! ### generate_pseudonym (source lines 79-105) -/

/-- Decimal digits of a natural number, the Python str(n) for n ≥ 0.
The fuel argument is structural; fuel n + 1 suffices for input n. -/
def decReprF : Nat → Nat → Str
  | 0, _ => []
  | f + 1, n =>
      if n < 10 then [Char.ofNat (48 + n)]
      else decReprF f (n / 10) ++ [Char.ofNat (48 + n % 10)]

/-- Python str(n) for a natural number n. -/
def decRepr (n : Nat) : Str := decReprF (n + 1) n

/-- The letter-building while-loop of generate_pseudonym (source lines
98-105), on natural number indices.  One unit of fuel per iteration;
fuel n + 1 suffices for index n. -/
def genCharsF : Nat → Nat → Str
  | 0, _ => []
  | f + 1, n =>
      let c := Char.ofNat (65 + n % 26)
      if n / 26 = 0 then [c] else genCharsF f (n / 26 - 1) ++ [c]

/-- generate_pseudonym(index, prefix) of the source: a nonempty prefix gives
prefix + str(index + 1); an empty prefix gives the bijective base-26
alphabetic label of the while-loop. -/
def generate_pseudonym (n : Nat) (pre : Str) : Str :=
  if pre = [] then genCharsF (n + 1) n else pre ++ decRepr (n + 1)

/-- The same while-loop on Python integers, which may be negative: Python
floor division and floor modulus by the positive constant 26 agree with the
Euclidean division and modulus that / and % denote on Int.  none models a
run that has not finished within the given fuel. -/
def genLoopI : Nat → Int → Str → Option Str
  | 0, _, _ => none
  | f + 1, index, acc =>
      let acc2 := Char.ofNat (65 + index % 26).toNat :: acc
      if index / 26 = 0 then some acc2
      else genLoopI f (index / 26 - 1) acc2

/-- Bijective base-26 value of a letter string; proof-side inverse of the
letter loop, with A worth 1 up to Z worth 26. -/
def decode26 (s : Str) : Nat := s.foldl (fun a c => a * 26 + (c.toNat - 64)) 0

/-- Decimal value of a digit string; proof-side inverse of decRepr. -/
def parse10 (s : Str) : Nat := s.foldl (fun a c => a * 10 + (c.toNat - 48)) 0

/-! ### The time pattern \d{1,2}:\d{2} (source lines 124, 226) -/

/-- One attempt of the time regex at position i: greedy, so two leading
digits are tried before one.  Returns the end offset of the match. -/
def timeMatchEnd (t : Str) (i : Nat) : Option Nat :=
  if chAt t i Char.isDigit && chAt t (i+1) Char.isDigit && chAt t (i+2) (fun c => c = ':')
      && chAt t (i+3) Char.isDigit && chAt t (i+4) Char.isDigit then some (i + 5)
  else if chAt t i Char.isDigit && chAt t (i+1) (fun c => c = ':')
      && chAt t (i+2) Char.isDigit && chAt t (i+3) Char.isDigit then some (i + 4)
  else none

/-- re.finditer for the time pattern: scan left to right, resuming after
each match.  One unit of fuel per examined position. -/
def timeFindF (t : Str) : Nat → Nat → Option (List (Nat × Nat))
  | 0, _ => none
  | f + 1, i =>
      if i < t.length then
        match timeMatchEnd t i with
        | some e => (timeFindF t f e).map (fun rest => (i, e) :: rest)
        | none => timeFindF t f (i + 1)
      else some []

/-- All (start, end) spans of time-pattern matches of a text. -/
def timeSpans (t : Str) : List (Nat × Nat) :=
  (timeFindF t (t.length + 1) 0).getD []

/-- The protected-offset set of extract_all_numbers (source lines 125-129):
every character offset covered by a time-pattern match. -/
def timeOffsets (t : Str) : List Nat :=
  (timeSpans t).flatMap (fun p => List.range' p.1 (p.2 - p.1))

/-! ### The numeric literal pattern (source line 132)

The pattern is (?<![A-Za-z0-9_])(?:\d{1,3}(?:,\d{3})*|\d+)(?:\.\d+)?(?![A-Za-z0-9_]).
At a given start position the backtracking engine explores candidate end
positions in a fixed preference order; the match succeeds at the first
candidate whose trailing lookahead holds.  The functions below enumerate the
candidate end positions in exactly that preference order. -/

/-- Length of the run of ASCII digits at the head of a text. -/
def digitRunL : Str → Nat
  | [] => 0
  | c :: rest => if c.isDigit then 1 + digitRunL rest else 0

/-- Maximal number of comma groups ,\d{3} at the head of a text. -/
def commaGroupsL : Str → Nat
  | ',' :: d1 :: d2 :: d3 :: rest =>
      if d1.isDigit && d2.isDigit && d3.isDigit then 1 + commaGroupsL rest else 0
  | _ => 0

/-- Candidate digit counts for the greedy \d{1,3}, largest first. -/
def dChoices (t : Str) (i : Nat) : List Nat :=
  if 3 ≤ digitRunL (t.drop i) then [3, 2, 1]
  else if digitRunL (t.drop i) = 2 then [2, 1]
  else if digitRunL (t.drop i) = 1 then [1] else []

/-- Candidate end positions of the optional greedy fraction (?:\.\d+)?
starting at j: first the fraction with as many digits as possible, then
with fewer, finally no fraction at all. -/
def fracCandidates (t : Str) (j : Nat) : List Nat :=
  if chAt t j (fun c => c = '.') then
    (List.range (digitRunL (t.drop (j+1)))).map
      (fun a => j + 1 + (digitRunL (t.drop (j+1)) - a)) ++ [j]
  else [j]

/-- Candidate end positions of the first alternative \d{1,3}(?:,\d{3})*
followed by the optional fraction, in backtracking preference order. -/
def alt1Cands (t : Str) (i : Nat) : List Nat :=
  (dChoices t i).flatMap (fun d =>
    ((List.range (commaGroupsL (t.drop (i + d)) + 1)).map
        (fun a => commaGroupsL (t.drop (i + d)) - a)).flatMap
      (fun k => fracCandidates t (i + d + 4 * k)))

/-- Candidate end positions of the second alternative \d+ followed by the
optional fraction, in backtracking preference order. -/
def alt2Cands (t : Str) (i : Nat) : List Nat :=
  ((List.range (digitRunL (t.drop i))).map (fun a => i + (digitRunL (t.drop i) - a))).flatMap
    (fun n => fracCandidates t n)

/-- One attempt of the numeric literal regex at position i: the lookbehind,
then the first candidate end position whose lookahead holds. -/
def numberMatchEnd (t : Str) (i : Nat) : Option Nat :=
  if decide (0 < i) && chAt t (i - 1) isWordChar then none
  else (alt1Cands t i ++ alt2Cands t i).find? (fun e => !(chAt t e isWordChar))

/-- re.finditer for the numeric literal pattern. -/
def numberFindF (t : Str) : Nat → Nat → Option (List (Nat × Nat))
  | 0, _ => none
  | f + 1, i =>
      if i < t.length then
        match numberMatchEnd t i with
        | some e => (numberFindF t f e).map (fun rest => (i, e) :: rest)
        | none => numberFindF t f (i + 1)
      else some []

/-- All (start, end) spans of numeric literal matches of a text. -/
def numberSpans (t : Str) : List (Nat × Nat) :=
  (numberFindF t (t.length + 1) 0).getD []

/-- extract_all_numbers (source lines 112-145): every numeric literal match,
in document order, except those whose character range meets the
protected-offset set of the time pattern. -/
def extract_all_numbers (t : Str) : List (Str × Nat × Nat) :=
  (numberSpans t).filterMap (fun p =>
    if (List.range' p.1 (p.2 - p.1)).any (fun j => (timeOffsets t).contains j) then none
    else some (strSlice t p.1 p.2, p.1, p.2))

/-! ### Occurrence counting (source lines 181-186) -/

/-- Number of non-overlapping occurrences of a nonempty pattern, scanning
left to right as re.findall does on an escaped literal.  One unit of fuel
per examined position; fuel length + 1 suffices. -/
def countLitF (pat : Str) : Nat → Str → Nat
  | 0, _ => 0
  | _ + 1, [] => 0
  | f + 1, c :: rest =>
      if pat.isPrefixOf (c :: rest) then 1 + countLitF pat f ((c :: rest).drop pat.length)
      else countLitF pat f rest

/-- len(re.findall(re.escape(target), text)), with optional re.IGNORECASE:
an empty pattern matches at every position, a nonempty one is counted
left to right without overlaps. -/
def countOcc (ci : Bool) (pat text : Str) : Nat :=
  let p := foldCase ci pat
  let s := foldCase ci text
  if p = [] then s.length + 1 else countLitF p (s.length + 1) s

/-! ### create_anonymization_mapping (source lines 152-205) -/

/-- The keyword loop of create_anonymization_mapping (source lines 175-192):
the raw target is tested against the stored keys, the stored key is the
lower-cased target in case-insensitive mode, and only targets that occur in
the text receive a pseudonym.  State: mapping, occurrences, next index. -/
def kwPhase (text : Str) (ci : Bool) :
    List Str → List (Str × Str) → List (Str × Nat) → Nat →
    List (Str × Str) × List (Str × Nat) × Nat
  | [], m, occ, idx => (m, occ, idx)
  | target :: ts, m, occ, idx =>
      if dictContains m target then kwPhase text ci ts m occ idx
      else
        let key := if ci then lowerStr target else target
        let count := countOcc ci target text
        if 0 < count then
          kwPhase text ci ts (dictSet m key (generate_pseudonym idx []))
            (dictSet occ key count) (idx + 1)
        else kwPhase text ci ts m occ idx

/-- Strict lexicographic comparison of strings by character code point,
the Python < on strings. -/
def strLt : Str → Str → Bool
  | [], [] => false
  | [], _ :: _ => true
  | _ :: _, [] => false
  | a :: as, b :: bs => if a < b then true else if b < a then false else strLt as bs

/-- Insert into an ascending list, used to model Python sorted. -/
def insAsc (x : Str) : List Str → List Str
  | [] => [x]
  | y :: ys => if strLt x y then x :: y :: ys else y :: insAsc x ys

/-- Python sorted on a list of strings, ascending lexicographic order. -/
def sortAsc (l : List Str) : List Str := l.foldl (fun acc x => insAsc x acc) []

/-- Distinct elements of a list, modelling set(...) before sorted orders
them (the order produced here is irrelevant after sorting). -/
def dedupAux (seen : List Str) : List Str → List Str
  | [] => []
  | x :: xs => if x ∈ seen then dedupAux seen xs else x :: dedupAux (x :: seen) xs

/-- Distinct elements of a list of strings. -/
def dedupStr (l : List Str) : List Str := dedupAux [] l

/-- The numeric loop of create_anonymization_mapping (source lines 195-203):
each distinct extracted literal, in sorted order, receives NUM_ pseudonyms
and its total occurrence count among the extracted spans. -/
def numPhase (nums : List (Str × Nat × Nat)) :
    List Str → Nat → List (Str × Str) → List (Str × Nat) →
    List (Str × Str) × List (Str × Nat)
  | [], _, m, occ => (m, occ)
  | number :: rest, k, m, occ =>
      numPhase nums rest (k + 1)
        (dictSet m number (generate_pseudonym k ("NUM_".data)))
        (dictSet occ number ((nums.filter (fun x => decide (x.1 = number))).length))

/-- create_anonymization_mapping(targets, text, case_insensitive,
anonymize_numbers) of the source: the keyword phase, then, when numbers are
anonymized, the numeric phase over the sorted distinct extracted literals. -/
def create_anonymization_mapping (targets : List Str) (text : Str) (ci an : Bool) :
    List (Str × Str) × List (Str × Nat) :=
  let kw := kwPhase text ci targets [] [] 0
  if an then
    let nums := extract_all_numbers text
    numPhase nums (sortAsc (dedupStr (nums.map (fun x => x.1)))) 0 kw.1 kw.2.1
  else (kw.1, kw.2.1)

/-! ### anonymize_text (source lines 208-260) -/

/-- Equality of characters, case-folded when ci is set. -/
def charEqCI (ci : Bool) (a b : Char) : Bool :=
  if ci then a.toLower == b.toLower else a == b

/-- Match of a literal pattern at the head of a text, case-folded when ci
is set. -/
def isPrefixCI (ci : Bool) : Str → Str → Bool
  | [], _ => true
  | _ :: _, [] => false
  | a :: as, b :: bs => charEqCI ci a b && isPrefixCI ci as bs

/-- Non-overlapping left-to-right replacement of a nonempty literal pattern,
the common core of str.replace and of re.sub on an escaped literal.  One
unit of fuel per examined position; none models exhausted fuel. -/
def replaceAllF (pat rep : Str) (ci : Bool) : Nat → Str → Option Str
  | 0, _ => none
  | _ + 1, [] => some []
  | f + 1, c :: rest =>
      if isPrefixCI ci pat (c :: rest) then
        (replaceAllF pat rep ci f (List.drop pat.length (c :: rest))).map
          (fun tail => rep ++ tail)
      else (replaceAllF pat rep ci f rest).map (fun tail => c :: tail)

/-- Replacement of an empty pattern: Python inserts the replacement at every
position, including the end of the text. -/
def emptyPatSub (rep : Str) : Str → Str
  | [] => rep
  | c :: rest => rep ++ c :: emptyPatSub rep rest

/-- str.replace(pat, rep), and re.sub of the escaped literal pat when ci is
set (replacement escape processing is not modelled: the replacements of the
program never contain a backslash). -/
def replaceAll (pat rep : Str) (ci : Bool) (s : Str) : Str :=
  if pat = [] then emptyPatSub rep s
  else (replaceAllF pat rep ci (s.length + 1) s).getD s

/-- The placeholder alphabetic index of time_replacer (source line 235):
a single letter below 26, else X followed by the decimal index. -/
def alphaIdx (idx : Nat) : Str :=
  if idx < 26 then [Char.ofNat (65 + idx)] else 'X' :: decRepr idx

/-- The placeholder token for the time match of a given index (source
lines 228-236). -/
def placeholderFor (idx : Nat) : Str :=
  "§§§TIME".data ++ alphaIdx idx ++ "PROTECTED§§§".data

/-- The substitution performed by time_pattern.sub(time_replacer, text):
each time span, left to right, becomes the placeholder of its index; the
text between the spans is kept. -/
def spliceProtect (t : Str) : List (Nat × Nat) → Nat → Nat → Str
  | [], pos, _ => t.drop pos
  | (s, e) :: rest, pos, idx =>
      (t.drop pos).take (s - pos) ++ placeholderFor idx ++ spliceProtect t rest e (idx + 1)

/-- Phase 1 of anonymize_text: the protected text together with the list of
original time substrings, in match order. -/
def protectTimes (t : Str) : Str × List Str :=
  (spliceProtect t (timeSpans t) 0 0, (timeSpans t).map (fun p => strSlice t p.1 p.2))

/-- The substitution order of phase 2: mapping keys sorted by decreasing
length; the sort of Python is stable, which insertion sort with the
reflexive length comparison reproduces. -/
def keyGE (a b : Str) : Prop := b.length ≤ a.length

instance : DecidableRel keyGE := fun a b => inferInstanceAs (Decidable (b.length ≤ a.length))

instance : IsTotal Str keyGE := ⟨fun a b => Nat.le_total b.length a.length⟩

instance : IsTrans Str keyGE := ⟨fun _ _ _ hab hbc => Nat.le_trans hbc hab⟩

/-- sorted(mapping.keys(), key=len, reverse=True) of the source (line 241). -/
def substKeys (m : List (Str × Str)) : List Str :=
  List.insertionSort keyGE (dictKeys m)

/-- Phase 3 of anonymize_text (source lines 255-258): each placeholder, by
ascending index, is replaced by its recorded time string. -/
def restoreAux : Nat → List Str → Str → Str
  | _, [], s => s
  | idx, tm :: rest, s => restoreAux (idx + 1) rest (replaceAll (placeholderFor idx) tm false s)

/-- anonymize_text(text, mapping, case_insensitive) of the source: protect
the time spans, substitute every mapping key from the longest down on the
working text, restore the time spans. -/
def anonymize_text (t : Str) (m : List (Str × Str)) (ci : Bool) : Str :=
  let pr := protectTimes t
  let substituted := (substKeys m).foldl (fun acc k => replaceAll k (dictGetD m k []) ci acc) pr.1
  restoreAux 0 pr.2 substituted

/-! ### The global accumulation of main (source lines 411-417) -/

/-- The per-file accumulation loop of main: a key seen for the first time
enters the global mapping with its pseudonym and count; a key seen again
only adds its count. -/
def accumulate_global (gm : List (Str × Str)) (go : List (Str × Nat))
    (m : List (Str × Str)) (occ : List (Str × Nat)) :
    List (Str × Str) × List (Str × Nat) :=
  m.foldl (fun st kv =>
    if dictContains st.1 kv.1 then
      (st.1, dictSet st.2 kv.1 (dictGetD st.2 kv.1 0 + dictGetD occ kv.1 0))
    else (dictSet st.1 kv.1 kv.2, dictSet st.2 kv.1 (dictGetD occ kv.1 0))) (gm, go)

/-! ## Helper lemmas on pseudonym generation -/

theorem char_toNat_ofNat {n : Nat} (h : n < 55296) : (Char.ofNat n).toNat = n := by
  unfold Char.ofNat
  rw [dif_pos (Or.inl h)]
  rfl

theorem decode26_append (xs : Str) (c : Char) :
    decode26 (xs ++ [c]) = decode26 xs * 26 + (c.toNat - 64) := by
  simp [decode26, List.foldl_append]

theorem genCharsF_decode : ∀ f n, n < f → decode26 (genCharsF f n) = n + 1 := by
  intro f
  induction f with
  | zero => intro n h; omega
  | succ f ih =>
      intro n h
      simp only [genCharsF]
      by_cases h26 : n / 26 = 0
      · rw [if_pos h26]
        have hc : (Char.ofNat (65 + n % 26)).toNat = 65 + n % 26 :=
          char_toNat_ofNat (by omega)
        simp [decode26, hc]
        omega
      · rw [if_neg h26]
        rw [decode26_append, ih (n / 26 - 1) (by omega)]
        have hc : (Char.ofNat (65 + n % 26)).toNat = 65 + n % 26 :=
          char_toNat_ofNat (by omega)
        rw [hc]
        omega

theorem genCharsF_chars : ∀ f n c, c ∈ genCharsF f n → 65 ≤ c.toNat ∧ c.toNat ≤ 90 := by
  intro f
  induction f with
  | zero => intro n c hc; simp [genCharsF] at hc
  | succ f ih =>
      intro n c hc
      simp only [genCharsF] at hc
      have hv : (Char.ofNat (65 + n % 26)).toNat = 65 + n % 26 :=
        char_toNat_ofNat (by omega)
      by_cases h26 : n / 26 = 0
      · rw [if_pos h26] at hc
        simp at hc
        rw [hc, hv]
        omega
      · rw [if_neg h26] at hc
        rcases List.mem_append.mp hc with h1 | h2
        · exact ih _ _ h1
        · simp at h2
          rw [h2, hv]
          omega

theorem alpha_pseudonym_inj {m n : Nat}
    (h : generate_pseudonym m [] = generate_pseudonym n []) : m = n := by
  rw [generate_pseudonym, if_pos rfl, generate_pseudonym, if_pos rfl] at h
  have hm := genCharsF_decode (m + 1) m (by omega)
  have hn := genCharsF_decode (n + 1) n (by omega)
  rw [h, hn] at hm
  omega

theorem parse10_append (xs : Str) (c : Char) :
    parse10 (xs ++ [c]) = parse10 xs * 10 + (c.toNat - 48) := by
  simp [parse10, List.foldl_append]

theorem decReprF_parse : ∀ f n, n < f → parse10 (decReprF f n) = n := by
  intro f
  induction f with
  | zero => intro n h; omega
  | succ f ih =>
      intro n h
      simp only [decReprF]
      by_cases h10 : n < 10
      · rw [if_pos h10]
        have hc : (Char.ofNat (48 + n)).toNat = 48 + n := char_toNat_ofNat (by omega)
        simp [parse10, hc]
      · rw [if_neg h10]
        rw [parse10_append, ih (n / 10) (by omega)]
        have hc : (Char.ofNat (48 + n % 10)).toNat = 48 + n % 10 :=
          char_toNat_ofNat (by omega)
        rw [hc]
        omega

theorem decRepr_inj {a b : Nat} (h : decRepr a = decRepr b) : a = b := by
  have ha := decReprF_parse (a + 1) a (by omega)
  have hb := decReprF_parse (b + 1) b (by omega)
  rw [decRepr, decRepr] at h
  rw [h, hb] at ha
  omega

theorem num_pseudonym_inj {j k : Nat}
    (h : generate_pseudonym j ("NUM_".data) = generate_pseudonym k ("NUM_".data)) :
    j = k := by
  rw [generate_pseudonym, if_neg (by decide), generate_pseudonym, if_neg (by decide)] at h
  have := decRepr_inj (List.append_cancel_left h)
  omega

theorem alpha_ne_num (i j : Nat) :
    generate_pseudonym i [] ≠ generate_pseudonym j ("NUM_".data) := by
  intro h
  rw [generate_pseudonym, if_pos rfl, generate_pseudonym, if_neg (by decide)] at h
  have hu : '_' ∈ genCharsF (i + 1) i := by
    rw [h]
    exact List.mem_append.mpr (Or.inl (by decide))
  have := genCharsF_chars (i + 1) i '_' hu
  have hv : ('_' : Char).toNat = 95 := by decide
  omega

/-! ## Claim C4 -/

/-- C4: generate_pseudonym with empty prefix is the bijective base-26
alphabetic label (0 is A, 25 is Z, 26 is AA, 51 is AZ, 52 is BA, 701 is ZZ,
702 is AAA), is injective on indices, so the labels of indices 0..N-1 are
pairwise distinct for every N, and with a nonempty prefix it returns the
prefix followed by the decimal representation of index + 1. -/
theorem C4_generate_pseudonym_correct :
    generate_pseudonym 0 [] = ['A'] ∧ generate_pseudonym 25 [] = ['Z'] ∧
    generate_pseudonym 26 [] = ['A', 'A'] ∧ generate_pseudonym 51 [] = ['A', 'Z'] ∧
    generate_pseudonym 52 [] = ['B', 'A'] ∧ generate_pseudonym 701 [] = ['Z', 'Z'] ∧
    generate_pseudonym 702 [] = ['A', 'A', 'A'] ∧
    (∀ m n : Nat, generate_pseudonym m [] = generate_pseudonym n [] → m = n) ∧
    (∀ N : Nat,
      ((List.range N).map (fun i => generate_pseudonym i [])).Pairwise (fun a b => a ≠ b)) ∧
    (∀ (n : Nat) (pre : Str), pre ≠ [] → generate_pseudonym n pre = pre ++ decRepr (n + 1)) := by
  refine ⟨by decide, by decide, by decide, by decide, by decide, by decide, by decide,
    fun m n h => alpha_pseudonym_inj h, fun N => ?_, fun n pre hpre => ?_⟩
  · rw [List.pairwise_map]
    have := List.pairwise_lt_range N
    exact this.imp (fun hab h => Nat.ne_of_lt hab (alpha_pseudonym_inj h))
  · rw [generate_pseudonym, if_neg hpre]

/-- Witness for C4: the injectivity applied at index 3 and the prefixed
branch applied at the NUM_ label of index 0. -/
theorem C4_generate_pseudonym_correct_witness :
    (3 : Nat) = 3 ∧ generate_pseudonym 0 ("NUM_".data) = "NUM_".data ++ decRepr 1 :=
  ⟨C4_generate_pseudonym_correct.2.2.2.2.2.2.2.1 3 3 rfl,
   C4_generate_pseudonym_correct.2.2.2.2.2.2.2.2.2 0 ("NUM_".data) (by decide)⟩

/-! ## Claim C10 -/

theorem genLoopI_nat : ∀ (f n : Nat) (acc : Str), n < f →
    genLoopI f (n : Int) acc = some (genCharsF f n ++ acc) := by
  intro f
  induction f with
  | zero => intro n acc h; omega
  | succ f ih =>
      intro n acc h
      simp only [genLoopI, genCharsF]
      have hmod : (65 + (n : Int) % 26).toNat = 65 + n % 26 := by omega
      rw [hmod]
      by_cases h26 : n / 26 = 0
      · have hz : (n : Int) / 26 = 0 := by omega
        rw [if_pos hz, if_pos h26]
        rfl
      · have hz : ¬ (n : Int) / 26 = 0 := by omega
        rw [if_neg hz, if_neg h26]
        have hcast : (n : Int) / 26 - 1 = ((n / 26 - 1 : Nat) : Int) := by omega
        rw [hcast, ih (n / 26 - 1) _ (by omega)]
        simp

theorem genLoopI_neg : ∀ (f : Nat) (i : Int) (acc : Str), i < 0 →
    genLoopI f i acc = none := by
  intro f
  induction f with
  | zero => intro i acc h; rfl
  | succ f ih =>
      intro i acc h
      simp only [genLoopI]
      rw [if_neg (by omega)]
      exact ih _ _ (by omega)

/-- C10: under the precondition 0 ≤ index the letter loop of
generate_pseudonym terminates, within index + 1 iterations, and produces
the alphabetic label; for negative index (a contract violation) the loop
never exits, whatever fuel it is given. -/
theorem C10_pseudonym_loop_terminates :
    (∀ i : Int, 0 ≤ i →
      genLoopI (i.toNat + 1) i [] = some (generate_pseudonym i.toNat [])) ∧
    (∀ (f : Nat) (i : Int), i < 0 → genLoopI f i [] = none) := by
  constructor
  · intro i hi
    obtain ⟨n, rfl⟩ : ∃ n : Nat, i = (n : Int) := ⟨i.toNat, by omega⟩
    have ht : ((n : Int)).toNat = n := by omega
    rw [ht, genLoopI_nat (n + 1) n [] (by omega), generate_pseudonym, if_pos rfl]
    simp
  · intro f i hi
    exact genLoopI_neg f i [] hi

/-- Witness for C10: the loop at index 702 finishes with label AAA, and at
index -1 it exhausts any fuel. -/
theorem C10_pseudonym_loop_terminates_witness :
    genLoopI ((702 : Int).toNat + 1) (702 : Int) [] =
      some (generate_pseudonym (702 : Int).toNat []) ∧
    genLoopI 5 (-1 : Int) [] = none :=
  ⟨C10_pseudonym_loop_terminates.1 (702 : Int) (by decide),
   C10_pseudonym_loop_terminates.2 5 (-1 : Int) (by decide)⟩

/-! ## Claim C1 -/

/-- C1: the guarantee fails on the code.  With the case-insensitive mapping
that sends the key time to A, the placeholder that hides the time 9:30 is
itself corrupted by the substitution phase, the restoration finds no
placeholder, and the protected time does not reappear: the input contains
the time 9:30 once, the output is the corrupted literal, and 9:30 occurs
zero times in it. -/
theorem C1_time_protection_violated :
    anonymize_text ("at 9:30".data) [("time".data, "A".data)] true =
      "at §§§AAPROTECTED§§§".data ∧
    countOcc false ("9:30".data)
      (anonymize_text ("at 9:30".data) [("time".data, "A".data)] true) = 0 ∧
    countOcc false ("9:30".data) ("at 9:30".data) = 1 := by
  refine ⟨by decide, by decide, by decide⟩

/-! ## Claim C8 -/

/-- C8: idempotence of protection fails on the code.  On a text whose
literal content completes a placeholder across two protected spans, the
restoration of the first time consumes the placeholders of the later ones
and the function is not the identity even with an empty mapping. -/
theorem C8_protection_not_idempotent :
    anonymize_text ("1:11x2:22TIMEAPROTECTED3:33".data) [] true =
      "1:11x§§§TIMEBPROTECTED1:11TIMECPROTECTED§§§".data ∧
    countOcc false ("2:22".data)
      (anonymize_text ("1:11x2:22TIMEAPROTECTED3:33".data) [] true) = 0 ∧
    countOcc false ("2:22".data) ("1:11x2:22TIMEAPROTECTED3:33".data) = 1 := by
  refine ⟨by decide, by decide, by decide⟩

/-! ## Claim C6 -/

/-- C6: anonymize_text substitutes the mapping keys sequentially in
descending order of key length: the substitution order is a permutation of
the mapping keys that is sorted by the reflexive length-descending
relation, and on the mapping sending Jo to A and John to B the
case-sensitive result on John left is B left. -/
theorem C6_longest_match_first :
    anonymize_text ("John left".data)
        [("Jo".data, "A".data), ("John".data, "B".data)] false = "B left".data ∧
    (∀ m : List (Str × Str),
      (substKeys m).Perm (dictKeys m) ∧ List.Sorted keyGE (substKeys m)) := by
  refine ⟨by decide, fun m => ⟨?_, ?_⟩⟩
  · exact List.perm_insertionSort keyGE (dictKeys m)
  · exact List.sorted_insertionSort keyGE (dictKeys m)

/-! ## Helper lemmas on the numeric literal matcher -/

theorem chAt_true_lt {t : Str} {i : Nat} {p : Char → Bool}
    (h : chAt t i p = true) : i < t.length := by
  unfold chAt at h
  cases hg : t[i]? with
  | none => rw [hg] at h; exact absurd h (by simp)
  | some c => exact (List.getElem?_eq_some.mp hg).1

theorem digitRunL_le_length (l : Str) : digitRunL l ≤ l.length := by
  induction l with
  | nil => simp [digitRunL]
  | cons c rest ih =>
      unfold digitRunL
      split
      · simp only [List.length_cons]
        omega
      · omega

theorem commaGroupsL_le_length (l : Str) : 4 * commaGroupsL l ≤ l.length := by
  induction l using commaGroupsL.induct with
  | case1 d1 d2 d3 rest hd ih =>
      rw [commaGroupsL, if_pos hd]
      simp only [List.length_cons]
      omega
  | case2 d1 d2 d3 rest hd =>
      rw [commaGroupsL, if_neg hd]
      omega
  | case3 t ht =>
      rw [commaGroupsL.eq_def]
      split
      · rename_i x d1 d2 d3 rest
        exact (ht d1 d2 d3 rest rfl).elim
      · omega

theorem mem_fracCandidates {t : Str} {j e : Nat}
    (h : e ∈ fracCandidates t j) : j ≤ e := by
  unfold fracCandidates at h
  split at h
  · rcases List.mem_append.mp h with h1 | h2
    · obtain ⟨a, _, rfl⟩ := List.mem_map.mp h1
      omega
    · simp at h2
      omega
  · simp at h
    omega

theorem mem_fracCandidates_le {t : Str} {j e : Nat}
    (hj : j ≤ t.length) (h : e ∈ fracCandidates t j) : e ≤ t.length := by
  unfold fracCandidates at h
  split at h
  · rename_i hdot
    have hjl : j < t.length := chAt_true_lt hdot
    have hrun := digitRunL_le_length (t.drop (j + 1))
    rw [List.length_drop] at hrun
    rcases List.mem_append.mp h with h1 | h2
    · obtain ⟨a, ha, rfl⟩ := List.mem_map.mp h1
      omega
    · simp at h2
      omega
  · simp at h
    omega

theorem mem_dChoices {t : Str} {i d : Nat} (h : d ∈ dChoices t i) :
    1 ≤ d ∧ d ≤ digitRunL (t.drop i) := by
  unfold dChoices at h
  split at h
  · simp at h
    rcases h with rfl | rfl | rfl <;> omega
  · split at h
    · simp at h
      rcases h with rfl | rfl <;> omega
    · split at h
      · simp at h
        omega
      · simp at h

theorem mem_alt1Cands {t : Str} {i e : Nat} (h : e ∈ alt1Cands t i) :
    i + 1 ≤ e ∧ e ≤ t.length := by
  unfold alt1Cands at h
  obtain ⟨d, hd, h2⟩ := List.mem_flatMap.mp h
  obtain ⟨k, hk, h3⟩ := List.mem_flatMap.mp h2
  obtain ⟨hd1, hd2⟩ := mem_dChoices hd
  have hrun := digitRunL_le_length (t.drop i)
  rw [List.length_drop] at hrun
  have hid : i + d ≤ t.length := by omega
  obtain ⟨a, ha, rfl⟩ := List.mem_map.mp hk
  have hcg := commaGroupsL_le_length (t.drop (i + d))
  rw [List.length_drop] at hcg
  have hj : i + d + 4 * (commaGroupsL (t.drop (i + d)) - a) ≤ t.length := by omega
  have h4 := mem_fracCandidates h3
  have h5 := mem_fracCandidates_le hj h3
  omega

theorem mem_alt2Cands {t : Str} {i e : Nat} (h : e ∈ alt2Cands t i) :
    i + 1 ≤ e ∧ e ≤ t.length := by
  unfold alt2Cands at h
  obtain ⟨n, hn, h2⟩ := List.mem_flatMap.mp h
  obtain ⟨a, ha, rfl⟩ := List.mem_map.mp hn
  have hra := List.mem_range.mp ha
  have hrun := digitRunL_le_length (t.drop i)
  rw [List.length_drop] at hrun
  have hj : i + (digitRunL (t.drop i) - a) ≤ t.length := by omega
  have h4 := mem_fracCandidates h2
  have h5 := mem_fracCandidates_le hj h2
  omega

theorem numberMatchEnd_bounds {t : Str} {i e : Nat}
    (h : numberMatchEnd t i = some e) : i < e ∧ e ≤ t.length := by
  unfold numberMatchEnd at h
  split at h
  · exact absurd h (by simp)
  · have hmem := List.mem_of_find?_eq_some h
    rcases List.mem_append.mp hmem with h1 | h2
    · have := mem_alt1Cands h1
      omega
    · have := mem_alt2Cands h2
      omega

theorem timeMatchEnd_bounds {t : Str} {i e : Nat}
    (h : timeMatchEnd t i = some e) : i + 4 ≤ e ∧ e ≤ t.length := by
  unfold timeMatchEnd at h
  split at h
  · rename_i hc
    simp only [Bool.and_eq_true] at hc
    have := chAt_true_lt hc.2
    simp only [Option.some.injEq] at h
    omega
  · split at h
    · rename_i hc
      simp only [Bool.and_eq_true] at hc
      have := chAt_true_lt hc.2
      simp only [Option.some.injEq] at h
      omega
    · exact absurd h (by simp)

theorem numberFindF_bounds {t : Str} : ∀ (f i : Nat) (l : List (Nat × Nat)),
    numberFindF t f i = some l → ∀ p ∈ l, i ≤ p.1 ∧ p.1 < p.2 := by
  intro f
  induction f with
  | zero => intro i l h; exact absurd h (by simp [numberFindF])
  | succ f ih =>
      intro i l h p hp
      simp only [numberFindF] at h
      split at h
      · cases hm : numberMatchEnd t i with
        | some e =>
            rw [hm] at h
            obtain ⟨rest, hrest, rfl⟩ := Option.map_eq_some'.mp h
            have hie := numberMatchEnd_bounds hm
            rcases List.mem_cons.mp hp with rfl | hp2
            · exact ⟨Nat.le_refl i, hie.1⟩
            · have := ih e rest hrest p hp2
              omega
        | none =>
            rw [hm] at h
            have := ih (i + 1) l h p hp
            omega
      · simp only [Option.some.injEq] at h
        subst h
        simp at hp

theorem numberFindF_sorted {t : Str} : ∀ (f i : Nat) (l : List (Nat × Nat)),
    numberFindF t f i = some l → l.Pairwise (fun a b => a.1 < b.1) := by
  intro f
  induction f with
  | zero => intro i l h; exact absurd h (by simp [numberFindF])
  | succ f ih =>
      intro i l h
      simp only [numberFindF] at h
      split at h
      · cases hm : numberMatchEnd t i with
        | some e =>
            rw [hm] at h
            obtain ⟨rest, hrest, rfl⟩ := Option.map_eq_some'.mp h
            have hie := numberMatchEnd_bounds hm
            refine List.Pairwise.cons ?_ (ih e rest hrest)
            intro q hq
            have := numberFindF_bounds f e rest hrest q hq
            omega
        | none =>
            rw [hm] at h
            exact ih (i + 1) l h
      · simp only [Option.some.injEq] at h
        subst h
        simp

theorem pairwise_filterMap_starts {α : Type} (g : Nat × Nat → Option (α × Nat × Nat))
    (hg : ∀ p q, g p = some q → q.2.1 = p.1) :
    ∀ l : List (Nat × Nat), l.Pairwise (fun a b => a.1 < b.1) →
      (l.filterMap g).Pairwise (fun a b => a.2.1 < b.2.1) := by
  intro l
  induction l with
  | nil => intro _; simp
  | cons x xs ih =>
      intro hl
      rw [List.filterMap_cons]
      cases hx : g x with
      | none => exact ih (List.Pairwise.of_cons hl)
      | some y =>
          refine List.Pairwise.cons ?_ (ih (List.Pairwise.of_cons hl))
          intro z hz
          obtain ⟨w, hw, hgw⟩ := List.mem_filterMap.mp hz
          have h1 := hg x y hx
          have h2 := hg w z hgw
          have h3 := (List.pairwise_cons.mp hl).1 w hw
          omega

/-! ## Claim C5 -/

/-- C5: extract_all_numbers on the sample texts, together with the general
guarantees: no returned match covers an offset of the protected time set,
and the matches are returned in strictly increasing document order. -/
theorem C5_extract_all_numbers_correct :
    extract_all_numbers ("Meet at 9:30 and bring 9301".data) = [("9301".data, 23, 27)] ∧
    extract_all_numbers ("12:30".data) = [] ∧
    extract_all_numbers ("1,234.56".data) = [("1,234.56".data, 0, 8)] ∧
    extract_all_numbers ("v2".data) = [] ∧
    extract_all_numbers ("room101".data) = [] ∧
    extract_all_numbers ([] : Str) = [] ∧
    (∀ (t : Str) (m : Str × Nat × Nat), m ∈ extract_all_numbers t →
      ∀ j : Nat, m.2.1 ≤ j → j < m.2.2 → (timeOffsets t).contains j = false) ∧
    (∀ t : Str, (extract_all_numbers t).Pairwise (fun a b => a.2.1 < b.2.1)) := by
  refine ⟨by decide, by decide, by decide, by decide, by decide, by decide,
    fun t m hm => ?_, fun t => ?_⟩
  · unfold extract_all_numbers at hm
    obtain ⟨p, hp, hg⟩ := List.mem_filterMap.mp hm
    split at hg
    · exact absurd hg (by simp)
    · rename_i hcond
      simp only [Option.some.injEq] at hg
      subst hg
      intro j hj1 hj2
      simp only at hj1 hj2
      have hjmem : j ∈ List.range' p.1 (p.2 - p.1) := by
        rw [List.mem_range'_1]
        omega
      cases hcont : (timeOffsets t).contains j with
      | false => rfl
      | true => exact absurd (List.any_eq_true.mpr ⟨j, hjmem, hcont⟩) hcond
  · unfold extract_all_numbers numberSpans
    cases h : numberFindF t (t.length + 1) 0 with
    | none => simp
    | some l =>
        have hpw := numberFindF_sorted (t.length + 1) 0 l h
        simp only [Option.getD_some]
        refine pairwise_filterMap_starts _ ?_ l hpw
        intro p q hg
        split at hg
        · exact absurd hg (by simp)
        · simp only [Option.some.injEq] at hg
          subst hg
          rfl

/-- Witness for C5: the disjointness guarantee applied to the single match
of the sample text, at offset 24 inside the protected time 9:30. -/
theorem C5_extract_all_numbers_correct_witness :
    (timeOffsets ("Meet at 9:30 and bring 9301".data)).contains 24 = false :=
  C5_extract_all_numbers_correct.2.2.2.2.2.2.1
    ("Meet at 9:30 and bring 9301".data) ("9301".data, 23, 27)
    (by decide) 24 (by decide) (by decide)

/-! ## Helper lemmas on dictionaries and the mapping phases -/

theorem mem_dictSet {β : Type} {m : List (Str × β)} {k : Str} {v : β} {p : Str × β}
    (h : p ∈ dictSet m k v) : p = (k, v) ∨ p ∈ m := by
  induction m with
  | nil =>
      simp [dictSet] at h
      left
      exact h
  | cons q rest ih =>
      obtain ⟨k2, v2⟩ := q
      unfold dictSet at h
      split at h
      · rename_i hk
        subst hk
        rcases List.mem_cons.mp h with rfl | h2
        · left; rfl
        · right; exact List.mem_cons_of_mem _ h2
      · rcases List.mem_cons.mp h with rfl | h2
        · right; exact List.mem_cons_self _ _
        · rcases ih h2 with h3 | h3
          · left; exact h3
          · right; exact List.mem_cons_of_mem _ h3

theorem values_dictSet {β : Type} {m : List (Str × β)} {k : Str} {v : β} {x : β}
    (h : x ∈ (dictSet m k v).map Prod.snd) : x = v ∨ x ∈ m.map Prod.snd := by
  obtain ⟨p, hp, rfl⟩ := List.mem_map.mp h
  rcases mem_dictSet hp with rfl | h2
  · left; rfl
  · right; exact List.mem_map.mpr ⟨p, h2, rfl⟩

theorem pairwise_values_dictSet {m : List (Str × Str)} {k v : Str}
    (h : (m.map Prod.snd).Pairwise (fun a b => a ≠ b))
    (hv : v ∉ m.map Prod.snd) :
    ((dictSet m k v).map Prod.snd).Pairwise (fun a b => a ≠ b) := by
  induction m with
  | nil => simp [dictSet]
  | cons q rest ih =>
      obtain ⟨k2, v2⟩ := q
      unfold dictSet
      split
      · simp only [List.map_cons]
        refine List.Pairwise.cons ?_ ?_
        · intro y hy hvy
          subst hvy
          exact hv (List.mem_cons_of_mem _ hy)
        · exact (List.pairwise_cons.mp h).2
      · simp only [List.map_cons]
        refine List.Pairwise.cons ?_ ?_
        · intro y hy
          rcases values_dictSet hy with rfl | h2
          · intro hvy
            apply hv
            rw [← hvy]
            exact List.mem_cons_self _ _
          · exact (List.pairwise_cons.mp h).1 y h2
        · refine ih (List.Pairwise.of_cons h) ?_
          intro hmem
          exact hv (List.mem_cons_of_mem _ hmem)

theorem mem_insAsc {x y : Str} : ∀ {l : List Str}, x ∈ insAsc y l → x = y ∨ x ∈ l := by
  intro l
  induction l with
  | nil =>
      intro h
      simp [insAsc] at h
      left; exact h
  | cons z zs ih =>
      intro h
      unfold insAsc at h
      split at h
      · rcases List.mem_cons.mp h with rfl | h2
        · left; rfl
        · right; exact h2
      · rcases List.mem_cons.mp h with rfl | h2
        · right; exact List.mem_cons_self _ _
        · rcases ih h2 with h3 | h3
          · left; exact h3
          · right; exact List.mem_cons_of_mem _ h3

theorem mem_sortAsc_aux {x : Str} : ∀ (l acc : List Str),
    x ∈ l.foldl (fun acc y => insAsc y acc) acc → x ∈ l ∨ x ∈ acc := by
  intro l
  induction l with
  | nil =>
      intro acc h
      right; exact h
  | cons y ys ih =>
      intro acc h
      rcases ih (insAsc y acc) h with h2 | h2
      · left; exact List.mem_cons_of_mem _ h2
      · rcases mem_insAsc h2 with rfl | h3
        · left; exact List.mem_cons_self _ _
        · right; exact h3

theorem mem_sortAsc {x : Str} {l : List Str} (h : x ∈ sortAsc l) : x ∈ l := by
  rcases mem_sortAsc_aux l [] h with h2 | h2
  · exact h2
  · simp at h2

theorem mem_dedupAux {x : Str} : ∀ (l seen : List Str), x ∈ dedupAux seen l → x ∈ l := by
  intro l
  induction l with
  | nil => intro seen h; simp [dedupAux] at h
  | cons y ys ih =>
      intro seen h
      unfold dedupAux at h
      split at h
      · exact List.mem_cons_of_mem _ (ih seen h)
      · rcases List.mem_cons.mp h with rfl | h2
        · exact List.mem_cons_self _ _
        · exact List.mem_cons_of_mem _ (ih _ h2)

theorem kwPhase_occ_pos (text : Str) (ci : Bool) :
    ∀ (ts : List Str) (m : List (Str × Str)) (occ : List (Str × Nat)) (idx : Nat),
      (∀ p ∈ occ, 1 ≤ p.2) → ∀ p ∈ (kwPhase text ci ts m occ idx).2.1, 1 ≤ p.2 := by
  intro ts
  induction ts with
  | nil => intro m occ idx hocc p hp; exact hocc p hp
  | cons t ts ih =>
      intro m occ idx hocc p hp
      simp only [kwPhase] at hp
      split at hp
      · exact ih _ _ _ hocc p hp
      · split at hp
        · rename_i hcnt
          refine ih _ _ _ ?_ p hp
          intro q hq
          rcases mem_dictSet hq with rfl | hq2
          · exact hcnt
          · exact hocc q hq2
        · exact ih _ _ _ hocc p hp

theorem numPhase_occ_pos (nums : List (Str × Nat × Nat)) :
    ∀ (uniq : List Str) (k : Nat) (m : List (Str × Str)) (occ : List (Str × Nat)),
      (∀ q ∈ occ, 1 ≤ q.2) → (∀ u ∈ uniq, u ∈ nums.map (fun x => x.1)) →
      ∀ p ∈ (numPhase nums uniq k m occ).2, 1 ≤ p.2 := by
  intro uniq
  induction uniq with
  | nil => intro k m occ hocc _ p hp; exact hocc p hp
  | cons number rest ih =>
      intro k m occ hocc huniq p hp
      simp only [numPhase] at hp
      refine ih _ _ _ ?_ (fun u hu => huniq u (List.mem_cons_of_mem _ hu)) p hp
      intro q hq
      rcases mem_dictSet hq with rfl | hq2
      · have hnum := huniq number (List.mem_cons_self _ _)
        obtain ⟨x, hx, hfx⟩ := List.mem_map.mp hnum
        have hxf : x ∈ nums.filter (fun x => decide (x.1 = number)) :=
          List.mem_filter.mpr ⟨hx, by simp [hfx]⟩
        have := List.length_pos.mpr (List.ne_nil_of_mem hxf)
        simpa using this
      · exact hocc q hq2

theorem create_occ_pos (targets : List Str) (text : Str) (ci an : Bool) :
    ∀ p ∈ (create_anonymization_mapping targets text ci an).2, 1 ≤ p.2 := by
  intro p hp
  unfold create_anonymization_mapping at hp
  cases an with
  | false =>
      simp only [Bool.false_eq_true, if_false] at hp
      exact kwPhase_occ_pos text ci targets [] [] 0 (by simp) p hp
  | true =>
      simp only [if_true] at hp
      refine numPhase_occ_pos _ _ _ _ _
        (kwPhase_occ_pos text ci targets [] [] 0 (by simp)) ?_ p hp
      intro u hu
      exact mem_dedupAux _ _ (mem_sortAsc hu)

/-! ## Claim C7 -/

/-- C7: keyword occurrence counting.  The sample build with target Kim on
the text Kim met Kim and kim in case-insensitive mode yields exactly the
mapping of kim to A with occurrence count 3; in general every recorded
occurrence count is at least 1 (a target that never occurs adds no entry),
and a single target is either skipped, when its count is zero, or stored
under its lower-cased key with the first alphabetic pseudonym A. -/
theorem C7_occurrence_counting :
    create_anonymization_mapping ["Kim".data] ("Kim met Kim and kim".data) true false =
      ([("kim".data, ['A'])], [("kim".data, 3)]) ∧
    (∀ (targets : List Str) (text : Str) (ci an : Bool),
      ∀ p ∈ (create_anonymization_mapping targets text ci an).2, 1 ≤ p.2) ∧
    (∀ (t text : Str),
      (create_anonymization_mapping [t] text true false).1 =
        if countOcc true t text = 0 then [] else [(lowerStr t, ['A'])]) := by
  refine ⟨by decide, create_occ_pos, fun t text => ?_⟩
  by_cases h : countOcc true t text = 0
  · rw [if_pos h]
    simp [create_anonymization_mapping, kwPhase, dictContains, h]
  · rw [if_neg h]
    have hpos : 0 < countOcc true t text := by omega
    simp [create_anonymization_mapping, kwPhase, dictContains, hpos, dictSet]
    decide

/-- Witness for C7: the positivity of the recorded count applied to the
single entry of the sample build. -/
theorem C7_occurrence_counting_witness : (1 : Nat) ≤ 3 :=
  C7_occurrence_counting.2.1 ["Kim".data] ("Kim met Kim and kim".data) true false
    ("kim".data, 3) (by decide)

/-! ## Claim C2 -/

theorem kwPhase_values (text : Str) (ci : Bool) :
    ∀ (ts : List Str) (m : List (Str × Str)) (occ : List (Str × Nat)) (idx : Nat),
      (∀ v ∈ m.map Prod.snd, ∃ i, i < idx ∧ v = generate_pseudonym i []) →
      (m.map Prod.snd).Pairwise (fun a b => a ≠ b) →
      (∀ v ∈ (kwPhase text ci ts m occ idx).1.map Prod.snd,
          ∃ i, i < (kwPhase text ci ts m occ idx).2.2 ∧ v = generate_pseudonym i []) ∧
      ((kwPhase text ci ts m occ idx).1.map Prod.snd).Pairwise (fun a b => a ≠ b) := by
  intro ts
  induction ts with
  | nil => intro m occ idx hb hpw; exact ⟨hb, hpw⟩
  | cons t ts ih =>
      intro m occ idx hb hpw
      simp only [kwPhase]
      split
      · exact ih m occ idx hb hpw
      · split
        · refine ih _ _ (idx + 1) ?_ ?_
          · intro v hv
            rcases values_dictSet hv with rfl | hv2
            · exact ⟨idx, by omega, rfl⟩
            · obtain ⟨i, hi, rfl⟩ := hb v hv2
              exact ⟨i, by omega, rfl⟩
          · refine pairwise_values_dictSet hpw ?_
            intro hmem
            obtain ⟨i, hi, hei⟩ := hb _ hmem
            have := alpha_pseudonym_inj hei
            omega
        · exact ih m occ idx hb hpw

theorem numPhase_values (nums : List (Str × Nat × Nat)) (K : Nat) :
    ∀ (uniq : List Str) (k : Nat) (m : List (Str × Str)) (occ : List (Str × Nat)),
      (∀ v ∈ m.map Prod.snd,
          (∃ i, i < K ∧ v = generate_pseudonym i []) ∨
          (∃ j, j < k ∧ v = generate_pseudonym j ("NUM_".data))) →
      (m.map Prod.snd).Pairwise (fun a b => a ≠ b) →
      ((numPhase nums uniq k m occ).1.map Prod.snd).Pairwise (fun a b => a ≠ b) := by
  intro uniq
  induction uniq with
  | nil => intro k m occ _ hpw; exact hpw
  | cons number rest ih =>
      intro k m occ hb hpw
      simp only [numPhase]
      refine ih (k + 1) _ _ ?_ ?_
      · intro v hv
        rcases values_dictSet hv with rfl | hv2
        · right; exact ⟨k, by omega, rfl⟩
        · rcases hb v hv2 with h1 | ⟨j, hj, rfl⟩
          · left; exact h1
          · right; exact ⟨j, by omega, rfl⟩
      · refine pairwise_values_dictSet hpw ?_
        intro hmem
        rcases hb _ hmem with ⟨i, _, hei⟩ | ⟨j, hj, hej⟩
        · exact alpha_ne_num i k hei.symm
        · have := num_pseudonym_inj hej
          omega

/-- C2 counterexample: the pseudonym index restarts at 0 for every file,
so the global mapping accumulated by main over two files, each resolving a
different keyword, assigns the pseudonym A to both keys kim and lee: its
pseudonyms are not pairwise distinct. -/
theorem C2_global_pseudonym_collision :
    (accumulate_global
        (accumulate_global [] []
          (create_anonymization_mapping ["kim".data, "lee".data] ("kim".data) true false).1
          (create_anonymization_mapping ["kim".data, "lee".data] ("kim".data) true false).2).1
        (accumulate_global [] []
          (create_anonymization_mapping ["kim".data, "lee".data] ("kim".data) true false).1
          (create_anonymization_mapping ["kim".data, "lee".data] ("kim".data) true false).2).2
        (create_anonymization_mapping ["kim".data, "lee".data] ("lee".data) true false).1
        (create_anonymization_mapping ["kim".data, "lee".data] ("lee".data) true false).2).1 =
      [("kim".data, ['A']), ("lee".data, ['A'])] ∧
    decide ((([("kim".data, (['A'] : Str)), ("lee".data, ['A'])]).map Prod.snd).Pairwise
      (fun a b => a ≠ b)) = false := by
  refine ⟨by decide, by decide⟩

/-- C2 amended: the mapping returned by a single create_anonymization_mapping
call does assign pairwise distinct pseudonyms to its keys; the claimed
uniqueness of the globally accumulated mapping is refuted by the
counterexample, since per-file pseudonym assignment restarts at index 0. -/
theorem C2_per_call_pseudonyms_distinct :
    ∀ (targets : List Str) (text : Str) (ci an : Bool),
      ((create_anonymization_mapping targets text ci an).1.map Prod.snd).Pairwise
        (fun a b => a ≠ b) := by
  intro targets text ci an
  have hkw := kwPhase_values text ci targets [] [] 0 (by simp) (by simp)
  unfold create_anonymization_mapping
  cases an with
  | false => simpa using hkw.2
  | true =>
      simp only [if_true]
      refine numPhase_values _ ((kwPhase text ci targets [] [] 0).2.2) _ 0 _ _ ?_ hkw.2
      intro v hv
      left
      exact hkw.1 v hv

/-! ## Claim C3 -/

/-- C3 counterexample: with case-insensitive targets Kim and KIM on the
text Kim, the membership test compares the raw target KIM against the
stored lower-cased key kim and fails, so the single entry kim is processed
twice and ends with the reassigned pseudonym B, not the first-assigned A. -/
theorem C3_case_variant_reassigns_pseudonym :
    (create_anonymization_mapping ["Kim".data, "KIM".data] ("Kim".data) true false).1 =
      [("kim".data, ['B'])] ∧
    decide ((create_anonymization_mapping ["Kim".data, "KIM".data]
        ("Kim".data) true false).1 = [("kim".data, ['A'])]) = false := by
  refine ⟨by decide, by decide⟩

/-- C3 amended: deduplication compares the raw target against the stored
keys.  In case-sensitive mode an exactly repeated target is processed once.
In case-insensitive mode two case variants of the same target still yield
exactly one entry, keyed by the lower-cased form, but when the second
variant differs from the stored lower-cased key the entry is reprocessed:
it receives the next pseudonym B assigned at the later index, not the
pseudonym A assigned when the key was first seen. -/
theorem C3_dedup_and_reassignment :
    (∀ (t1 t2 text : Str), lowerStr t1 = lowerStr t2 → t2 ≠ lowerStr t1 →
        1 ≤ countOcc true t1 text →
        (create_anonymization_mapping [t1, t2] text true false).1 =
          [(lowerStr t1, ['B'])]) ∧
    (∀ (t text : Str) (an : Bool),
        create_anonymization_mapping [t, t] text false an =
          create_anonymization_mapping [t] text false an) := by
  constructor
  · intro t1 t2 text h12 hne hcnt
    have hne2 : ¬ (lowerStr t1 = t2) := fun hh => hne hh.symm
    have hc2 : countOcc true t2 text = countOcc true t1 text := by
      simp [countOcc, foldCase, h12]
    have hcnt2 : 0 < countOcc true t1 text := hcnt
    have hA : generate_pseudonym 0 [] = ['A'] := by decide
    have hB : generate_pseudonym 1 [] = ['B'] := by decide
    have hnilM : ∀ (k v : Str), dictSet ([] : List (Str × Str)) k v = [(k, v)] :=
      fun _ _ => rfl
    have hnilN : ∀ (k : Str) (v : Nat), dictSet ([] : List (Str × Nat)) k v = [(k, v)] :=
      fun _ _ => rfl
    have hdM : dictSet [(lowerStr t1, (['A'] : Str))] (lowerStr t2) ['B'] =
        [(lowerStr t1, ['B'])] := by
      simp [dictSet, h12]
    have hdN : dictSet [(lowerStr t1, countOcc true t1 text)] (lowerStr t2)
        (countOcc true t1 text) = [(lowerStr t1, countOcc true t1 text)] := by
      simp [dictSet, h12]
    simp [create_anonymization_mapping, kwPhase, dictContains, hc2, hcnt2, hA, hB,
      hnilM, hnilN, hdM, hdN, hne2]
  · intro t text an
    suffices h : kwPhase text false [t, t] [] [] 0 = kwPhase text false [t] [] [] 0 by
      unfold create_anonymization_mapping
      rw [h]
    by_cases hc : 0 < countOcc false t text
    · have hd : dictContains (dictSet ([] : List (Str × Str)) t
          (generate_pseudonym 0 [])) t = true := by
        simp [dictSet, dictContains]
      simp only [kwPhase]
      simp [dictContains, hc, hd]
      exact ⟨generate_pseudonym 0 [], by simp [dictSet]⟩
    · simp only [kwPhase]
      simp [dictContains, hc]

/-- Witness for C3: the amended statement applied to the targets Kim and
KIM on the text Kim, and to the exactly repeated target ab. -/
theorem C3_dedup_and_reassignment_witness :
    (create_anonymization_mapping ["Kim".data, "KIM".data] ("Kim".data) true false).1 =
      [(lowerStr ("Kim".data), ['B'])] ∧
    create_anonymization_mapping ["ab".data, "ab".data] ("ab".data) false false =
      create_anonymization_mapping ["ab".data] ("ab".data) false false :=
  ⟨C3_dedup_and_reassignment.1 ("Kim".data) ("KIM".data) ("Kim".data)
      (by decide) (by decide) (by decide),
   C3_dedup_and_reassignment.2 ("ab".data) ("ab".data) false⟩

/-! ## Claim C9 -/

theorem timeFindF_isSome {t : Str} : ∀ (f i : Nat), i ≤ t.length →
    t.length + 1 ≤ f + i → (timeFindF t f i).isSome := by
  intro f
  induction f with
  | zero => intro i h1 h2; omega
  | succ f ih =>
      intro i h1 h2
      simp only [timeFindF]
      split
      · rename_i hlt
        cases hm : timeMatchEnd t i with
        | some e =>
            have hb := timeMatchEnd_bounds hm
            simpa using ih e hb.2 (by omega)
        | none => exact ih (i + 1) (by omega) (by omega)
      · simp

theorem numberFindF_isSome {t : Str} : ∀ (f i : Nat), i ≤ t.length →
    t.length + 1 ≤ f + i → (numberFindF t f i).isSome := by
  intro f
  induction f with
  | zero => intro i h1 h2; omega
  | succ f ih =>
      intro i h1 h2
      simp only [numberFindF]
      split
      · rename_i hlt
        cases hm : numberMatchEnd t i with
        | some e =>
            have hb := numberMatchEnd_bounds hm
            simpa using ih e hb.2 (by omega)
        | none => exact ih (i + 1) (by omega) (by omega)
      · simp

theorem replaceAllF_isSome {pat rep : Str} {ci : Bool} (hpat : pat ≠ []) :
    ∀ (f : Nat) (s : Str), s.length < f → (replaceAllF pat rep ci f s).isSome := by
  intro f
  induction f with
  | zero => intro s h; omega
  | succ f ih =>
      intro s h
      cases s with
      | nil => simp [replaceAllF]
      | cons c rest =>
          have hp : 0 < pat.length := List.length_pos.mpr hpat
          simp only [List.length_cons] at h
          simp only [replaceAllF]
          split
          · have hd : (List.drop pat.length (c :: rest)).length < f := by
              rw [List.length_drop]
              simp only [List.length_cons]
              omega
            simpa using ih _ hd
          · simpa using ih rest (by omega)

/-- C9: the scanning kernels of the three core functions are total on the
fuel their wrappers pass: the time scanner, the number scanner and the
literal replacement scanner always return a value within fuel length + 1,
so the fuel-exhaustion fallbacks of timeSpans, numberSpans and replaceAll
are unreachable and extract_all_numbers, create_anonymization_mapping and
anonymize_text are total functions of their inputs. -/
theorem C9_core_scanners_total :
    (∀ t : Str, timeFindF t (t.length + 1) 0 = some (timeSpans t)) ∧
    (∀ t : Str, numberFindF t (t.length + 1) 0 = some (numberSpans t)) ∧
    (∀ (pat rep : Str) (ci : Bool) (s : Str), pat ≠ [] →
      replaceAllF pat rep ci (s.length + 1) s = some (replaceAll pat rep ci s)) := by
  refine ⟨fun t => ?_, fun t => ?_, fun pat rep ci s hpat => ?_⟩
  · have h := timeFindF_isSome (t := t) (t.length + 1) 0 (by omega) (by omega)
    cases h2 : timeFindF t (t.length + 1) 0 with
    | none => rw [h2] at h; simp at h
    | some l =>
        rw [timeSpans, h2]
        rfl
  · have h := numberFindF_isSome (t := t) (t.length + 1) 0 (by omega) (by omega)
    cases h2 : numberFindF t (t.length + 1) 0 with
    | none => rw [h2] at h; simp at h
    | some l =>
        rw [numberSpans, h2]
        rfl
  · have h := @replaceAllF_isSome pat rep ci hpat (s.length + 1) s (by omega)
    rw [replaceAll, if_neg hpat]
    cases h2 : replaceAllF pat rep ci (s.length + 1) s with
    | none => rw [h2] at h; simp at h
    | some r => rfl

/-- Witness for C9: the replacement scanner applied to the one-letter
pattern a on the empty text. -/
theorem C9_core_scanners_total_witness :
    replaceAllF ['a'] [] false 1 [] = some (replaceAll ['a'] [] false []) :=
  C9_core_scanners_total.2.2 ['a'] [] false [] (by decide)

end SCMWriter
